import Mathlib

/-!
# Verification of the math_sim arithmetic pipeline

A shallow embedding of the math_sim repository: the bit-serial ALU (alu.c),
the word-addressed memory (memory.c), the AST and reference evaluator
(ast.h / eval.c), the IR and virtual CPU (ir.h / cpu.c), and the code
generator (codegen.c).  Machine words are `Nat` values kept below `2 ^ 32`;
C `int` fields are `Int`; fallible operations return `Except`.
-/

set_option maxRecDepth 10000

namespace MathSim

/-- Decidable equality of `Except` results, used to evaluate the embedded
operations on concrete inputs. -/
instance instDecEqExcept {ε α : Type} [DecidableEq ε] [DecidableEq α] :
    DecidableEq (Except ε α) := fun x y =>
  match x, y with
  | .error a, .error b =>
      if h : a = b then .isTrue (by rw [h])
      else .isFalse (fun hc => h (Except.error.inj hc))
  | .error _, .ok _ => .isFalse (fun hc => Except.noConfusion hc)
  | .ok _, .error _ => .isFalse (fun hc => Except.noConfusion hc)
  | .ok a, .ok b =>
      if h : a = b then .isTrue (by rw [h])
      else .isFalse (fun hc => h (Except.ok.inj hc))

/-! ## Bit-level helper lemmas -/

/-- Appending a bit block above the low `n` bits by bitwise or is addition. -/
theorem lor_two_pow_eq_add {n r : Nat} (h : r < 2 ^ n) :
    r ||| 2 ^ n = r + 2 ^ n := by
  apply Nat.eq_of_testBit_eq
  intro i
  rw [Nat.testBit_lor]
  rcases Nat.lt_trichotomy i n with hi | hi | hi
  · rw [Nat.add_comm r, Nat.testBit_two_pow_add_gt hi,
      Nat.testBit_two_pow_of_ne (Nat.ne_of_gt hi), Bool.or_false]
  · subst hi
    rw [Nat.add_comm r, Nat.testBit_two_pow_add_eq, Nat.testBit_lt_two_pow h,
      Nat.testBit_two_pow_self, Bool.or_true, Bool.not_false]
  · have h1 : r + 2 ^ n < 2 ^ i := by
      calc r + 2 ^ n < 2 ^ n + 2 ^ n := by omega
      _ = 2 ^ (n + 1) := by ring
      _ ≤ 2 ^ i := Nat.pow_le_pow_right (by omega) (by omega)
    rw [Nat.testBit_lt_two_pow h1,
      Nat.testBit_lt_two_pow (lt_trans h (Nat.pow_lt_pow_right (by omega) hi)),
      Nat.testBit_two_pow_of_ne (by omega), Bool.or_false]

/-- Or-ing a single bit `s ≤ 1` shifted up by `n` over a value `r < 2 ^ n`
is the same as adding `s * 2 ^ n`. -/
theorem lor_shift_eq_add {n r s : Nat} (h : r < 2 ^ n) (hs : s ≤ 1) :
    r ||| (s <<< n) = r + s * 2 ^ n := by
  interval_cases s
  · simp [Nat.shiftLeft_eq]
  · rw [Nat.shiftLeft_eq, Nat.one_mul, lor_two_pow_eq_add h]

/-- Bitwise complement of a 32-bit word via xor with all-ones. -/
theorem xor_ones_eq_sub {n b : Nat} (h : b < 2 ^ n) :
    b ^^^ (2 ^ n - 1) = 2 ^ n - 1 - b := by
  apply Nat.eq_of_testBit_eq
  intro i
  have hsub : 2 ^ n - 1 - b = 2 ^ n - (b + 1) := by omega
  rw [hsub, Nat.testBit_two_pow_sub_succ h, Nat.testBit_xor,
    Nat.testBit_two_pow_sub_one]
  by_cases hi : i < n
  · simp [hi]
  · have hbi : b < 2 ^ i := lt_of_lt_of_le h (Nat.pow_le_pow_right (by omega) (by omega))
    simp [hi, Nat.testBit_lt_two_pow hbi]

/-! ## ALU (alu.h / alu.c)

Words are `Nat` values; every ALU entry point is used with operands below
`2 ^ 32`.  `ripple_add` mirrors the C ripple-carry loop bit by bit. -/

/-- The four processor flags Z, N, C, V (alu.h `ALUFlags`). -/
structure ALUFlags where
  Z : Bool
  N : Bool
  C : Bool
  V : Bool
deriving DecidableEq

/-- One iteration of the ripple-carry loop body in `ripple_add`:
state is `(result, carry)`, `i` the bit index. -/
def rippleStep (a b : Nat) (st : Nat × Nat) (i : Nat) : Nat × Nat :=
  let a_bit := (a >>> i) &&& 1
  let b_bit := (b >>> i) &&& 1
  let sum_bit := a_bit ^^^ b_bit ^^^ st.2
  let carry_out := (a_bit &&& b_bit) ||| (st.2 &&& (a_bit ^^^ b_bit))
  (st.1 ||| (sum_bit <<< i), carry_out)

/-- `ripple_add` from alu.c: iterate the per-bit full adder over bits 0..31,
then derive the C, Z and N flags.  (The caller computes V.) -/
def ripple_add (a b carry_in : Nat) : Nat × ALUFlags :=
  let st := (List.range 32).foldl (rippleStep a b) (0, carry_in &&& 1)
  (st.1,
    { C := st.2 &&& 1 == 1
      Z := st.1 == 0
      N := (st.1 >>> 31) &&& 1 == 1
      V := false })

/-- `alu_add` from alu.c: ripple add with carry-in 0; V from the operand signs. -/
def alu_add (a b : Nat) : Nat × ALUFlags :=
  let r := ripple_add a b 0
  let sign_a := (a >>> 31) &&& 1
  let sign_b := (b >>> 31) &&& 1
  let sign_res := (r.1 >>> 31) &&& 1
  (r.1, { r.2 with V := sign_a == sign_b && sign_res != sign_a })

/-- `alu_sub` from alu.c: invert `b` (bitwise complement on 32 bits) and
ripple add with carry-in 1; V from the operand signs. -/
def alu_sub (a b : Nat) : Nat × ALUFlags :=
  let r := ripple_add a (b ^^^ 0xFFFFFFFF) 1
  let sign_a := (a >>> 31) &&& 1
  let sign_b := (b >>> 31) &&& 1
  let sign_res := (r.1 >>> 31) &&& 1
  (r.1, { r.2 with V := sign_a != sign_b && sign_res != sign_a })

/-- `alu_mul` from alu.c: lower 32 bits of the product; C and V pinned to 0. -/
def alu_mul (a b : Nat) : Nat × ALUFlags :=
  let result := (a * b) % 2 ^ 32
  (result,
    { Z := result == 0
      N := (result >>> 31) &&& 1 == 1
      C := false
      V := false })

/-- `alu_div` from alu.c: unsigned 32-bit quotient; C and V pinned to 0.
The caller must ensure `b ≠ 0`. -/
def alu_div (a b : Nat) : Nat × ALUFlags :=
  let result := a / b
  (result,
    { Z := result == 0
      N := (result >>> 31) &&& 1 == 1
      C := false
      V := false })

/-- The textbook one-bit full adder identity, for bits represented as 0/1. -/
theorem full_adder_bits (x y z : Nat) (hx : x ≤ 1) (hy : y ≤ 1) (hz : z ≤ 1) :
    (x ^^^ y ^^^ z) + 2 * ((x &&& y) ||| (z &&& (x ^^^ y))) = x + y + z
      ∧ (x ^^^ y ^^^ z) ≤ 1 ∧ ((x &&& y) ||| (z &&& (x ^^^ y))) ≤ 1 := by
  interval_cases x <;> interval_cases y <;> interval_cases z <;> decide

/-- Invariant of the ripple loop: after bits `0..n-1`, the accumulated result
and carry are the mod and div of `a % 2^n + b % 2^n + c` by `2 ^ n`. -/
theorem ripple_foldl_spec (a b c : Nat) (hc : c ≤ 1) (n : Nat) :
    (List.range n).foldl (rippleStep a b) (0, c)
      = ((a % 2 ^ n + b % 2 ^ n + c) % 2 ^ n,
         (a % 2 ^ n + b % 2 ^ n + c) / 2 ^ n) := by
  induction n with
  | zero => simp [Nat.mod_one]
  | succ n ih =>
    rw [List.range_succ, List.foldl_append, ih]
    set K := 2 ^ n with hK
    have hKpos : 0 < K := Nat.pos_pow_of_pos n (by omega)
    have hKK : 2 ^ (n + 1) = K * 2 := by rw [hK, pow_succ]
    set S := a % K + b % K + c with hS
    have hAm : a % (K * 2) = a % K + K * (a / K % 2) := Nat.mod_mul
    have hBm : b % (K * 2) = b % K + K * (b / K % 2) := Nat.mod_mul
    set abit := a / K % 2 with habit
    set bbit := b / K % 2 with hbbit
    have habit1 : abit ≤ 1 := Nat.le_of_lt_succ (Nat.mod_lt _ (by omega))
    have hbbit1 : bbit ≤ 1 := Nat.le_of_lt_succ (Nat.mod_lt _ (by omega))
    have hSdm : K * (S / K) + S % K = S := Nat.div_add_mod S K
    have hSK1 : S / K ≤ 1 := by
      have h1 : a % K < K := Nat.mod_lt _ hKpos
      have h2 : b % K < K := Nat.mod_lt _ hKpos
      have : S < K * 2 := by omega
      have := Nat.div_lt_of_lt_mul this
      omega
    have hfa := full_adder_bits abit bbit (S / K) habit1 hbbit1 hSK1
    set sb := abit ^^^ bbit ^^^ S / K with hsb
    set co := (abit &&& bbit) ||| (S / K &&& (abit ^^^ bbit)) with hco
    have hstep : rippleStep a b (S % K, S / K) n = (S % K ||| (sb <<< n), co) := by
      simp only [rippleStep, Nat.shiftRight_eq_div_pow, Nat.and_one_is_mod, ← hK]
    rw [List.foldl_cons, List.foldl_nil, hstep]
    have hmlt : S % K < K := Nat.mod_lt _ hKpos
    rw [lor_shift_eq_add hmlt hfa.2.1, ← hK]
    have hT : a % (K * 2) + b % (K * 2) + c
        = (S % K + sb * K) + K * 2 * co := by
      rw [hAm, hBm]
      have e1 : K * (sb + 2 * co) = K * (abit + bbit + S / K) := by rw [hfa.1]
      have e2 : K * (S / K) + S % K = a % K + b % K + c := hSdm
      ring_nf at e1 e2 ⊢
      linarith [e1, e2]
    have hXlt : S % K + sb * K < K * 2 := by
      have hsb1 : sb ≤ 1 := hfa.2.1
      have : sb * K ≤ 1 * K := Nat.mul_le_mul_right K hsb1
      omega
    rw [Prod.mk.injEq]
    refine ⟨?_, ?_⟩
    · rw [hKK, hT, Nat.add_mul_mod_self_left, Nat.mod_eq_of_lt hXlt]
    · rw [hKK, hT, Nat.add_mul_div_left _ _ (by omega), Nat.div_eq_of_lt hXlt,
        Nat.zero_add]

/-- `ripple_add` unfolded through the loop invariant, on in-range operands. -/
theorem ripple_add_eq (a b c : Nat) (ha : a < 2 ^ 32) (hb : b < 2 ^ 32)
    (hc : c ≤ 1) :
    ripple_add a b c
      = ((a + b + c) % 2 ^ 32,
         { C := (a + b + c) / 2 ^ 32 &&& 1 == 1
           Z := (a + b + c) % 2 ^ 32 == 0
           N := ((a + b + c) % 2 ^ 32) >>> 31 &&& 1 == 1
           V := false }) := by
  have hc' : c &&& 1 = c := by
    rw [Nat.and_one_is_mod]; omega
  have h := ripple_foldl_spec a b c hc 32
  rw [Nat.mod_eq_of_lt ha, Nat.mod_eq_of_lt hb] at h
  simp only [ripple_add, hc', h]

/-- Result of `ripple_add`: binary addition modulo `2 ^ 32`. -/
theorem ripple_add_result (a b c : Nat) (ha : a < 2 ^ 32) (hb : b < 2 ^ 32)
    (hc : c ≤ 1) :
    (ripple_add a b c).1 = (a + b + c) % 2 ^ 32 := by
  rw [ripple_add_eq a b c ha hb hc]

/-- C flag of `ripple_add`: the carry out of bit 31. -/
theorem ripple_add_C (a b c : Nat) (ha : a < 2 ^ 32) (hb : b < 2 ^ 32)
    (hc : c ≤ 1) :
    (ripple_add a b c).2.C = decide (2 ^ 32 ≤ a + b + c) := by
  rw [ripple_add_eq a b c ha hb hc]
  rcases Nat.eq_zero_or_pos ((a + b + c) / 2 ^ 32) with h0 | h0
  · have h2 : (a + b + c) / 2 ^ 32 &&& 1 = 0 := by
      rw [Nat.and_one_is_mod, h0]
    rw [h2]
    have hn : ¬ (2 ^ 32 ≤ a + b + c) := by omega
    simp [hn]
    omega
  · have h1' : (a + b + c) / 2 ^ 32 = 1 := by omega
    have h2 : (a + b + c) / 2 ^ 32 &&& 1 = 1 := by
      rw [Nat.and_one_is_mod, h1']
    rw [h2]
    have hy : 2 ^ 32 ≤ a + b + c := by omega
    simp [hy]
    omega

/-- Z flag of `ripple_add`: the 32-bit result is zero. -/
theorem ripple_add_Z (a b c : Nat) (ha : a < 2 ^ 32) (hb : b < 2 ^ 32)
    (hc : c ≤ 1) :
    (ripple_add a b c).2.Z = decide ((a + b + c) % 2 ^ 32 = 0) := by
  rw [ripple_add_eq a b c ha hb hc]
  exact Bool.beq_eq_decide_eq _ _

/-- A value below `2 ^ 32` has bit 31 set iff it is at least `2 ^ 31`. -/
theorem bit31_eq_decide (x : Nat) (hx : x < 2 ^ 32) :
    (x >>> 31 &&& 1 == 1) = decide (2 ^ 31 ≤ x) := by
  rcases Nat.eq_zero_or_pos (x / 2 ^ 31) with h0 | h0
  · have h2 : x >>> 31 &&& 1 = 0 := by
      rw [Nat.shiftRight_eq_div_pow, Nat.and_one_is_mod, h0]
    rw [h2]
    have hn : ¬ (2 ^ 31 ≤ x) := by omega
    simp [hn]
    omega
  · have h1' : x / 2 ^ 31 = 1 := by omega
    have h2 : x >>> 31 &&& 1 = 1 := by
      rw [Nat.shiftRight_eq_div_pow, Nat.and_one_is_mod, h1']
    rw [h2]
    have hy : 2 ^ 31 ≤ x := by omega
    simp [hy]
    omega

/-- N flag of `ripple_add`: bit 31 of the 32-bit result. -/
theorem ripple_add_N (a b c : Nat) (ha : a < 2 ^ 32) (hb : b < 2 ^ 32)
    (hc : c ≤ 1) :
    (ripple_add a b c).2.N = decide (2 ^ 31 ≤ (a + b + c) % 2 ^ 32) := by
  rw [ripple_add_eq a b c ha hb hc]
  exact bit31_eq_decide _ (Nat.mod_lt _ (by positivity))

/-- Bit 31 extraction as a conditional. -/
theorem shift31_and_one (x : Nat) (hx : x < 2 ^ 32) :
    x >>> 31 &&& 1 = if 2 ^ 31 ≤ x then 1 else 0 := by
  rw [Nat.shiftRight_eq_div_pow, Nat.and_one_is_mod]
  by_cases h : 2 ^ 31 ≤ x
  · have h1 : x / 2 ^ 31 = 1 := by omega
    rw [h1, if_pos h]
  · have h0 : x / 2 ^ 31 = 0 := by omega
    rw [h0, if_neg h]

/-- Result of `alu_add`: addition modulo `2 ^ 32`. -/
theorem alu_add_result (a b : Nat) (ha : a < 2 ^ 32) (hb : b < 2 ^ 32) :
    (alu_add a b).1 = (a + b) % 2 ^ 32 := by
  simp only [alu_add]
  rw [ripple_add_result a b 0 ha hb (by omega), Nat.add_zero]

/-- Flags of `alu_add` in terms of the unbounded sum. -/
theorem alu_add_flags (a b : Nat) (ha : a < 2 ^ 32) (hb : b < 2 ^ 32) :
    (alu_add a b).2.C = decide (2 ^ 32 ≤ a + b)
      ∧ (alu_add a b).2.Z = decide ((a + b) % 2 ^ 32 = 0)
      ∧ (alu_add a b).2.N = decide (2 ^ 31 ≤ (a + b) % 2 ^ 32)
      ∧ ((alu_add a b).2.V = true
          ↔ ((2 ^ 31 ≤ a ↔ 2 ^ 31 ≤ b)
              ∧ ¬(2 ^ 31 ≤ (a + b) % 2 ^ 32 ↔ 2 ^ 31 ≤ a))) := by
  have hC := ripple_add_C a b 0 ha hb (by omega)
  have hZ := ripple_add_Z a b 0 ha hb (by omega)
  have hN := ripple_add_N a b 0 ha hb (by omega)
  have hR := ripple_add_result a b 0 ha hb (by omega)
  refine ⟨?_, ?_, ?_, ?_⟩
  · simpa using hC
  · simpa using hZ
  · simpa using hN
  · simp only [alu_add, hR, Nat.add_zero]
    rw [shift31_and_one a ha, shift31_and_one b hb,
      shift31_and_one _ (Nat.mod_lt _ (by positivity))]
    by_cases hsa : 2 ^ 31 ≤ a <;> by_cases hsb : 2 ^ 31 ≤ b <;>
      by_cases hsr : 2 ^ 31 ≤ (a + b) % 2 ^ 32 <;>
      simp only [hsa, hsb, hsr, ite_true, ite_false, eq_iff_iff] <;> decide

/-- Result of `alu_sub` seen over the integers: subtraction modulo `2 ^ 32`. -/
theorem alu_sub_result (a b : Nat) (ha : a < 2 ^ 32) (hb : b < 2 ^ 32) :
    ((alu_sub a b).1 : Int) = ((a : Int) - b) % 2 ^ 32 := by
  simp only [alu_sub]
  have hco : b ^^^ 0xFFFFFFFF = 2 ^ 32 - 1 - b := by
    have := xor_ones_eq_sub (n := 32) hb
    norm_num at this ⊢
    exact this
  rw [hco, ripple_add_result a _ 1 ha (by omega) (by omega)]
  omega

/-- Result of `alu_sub` as a natural number. -/
theorem alu_sub_result_nat (a b : Nat) (ha : a < 2 ^ 32) (hb : b < 2 ^ 32) :
    (alu_sub a b).1 = (a + (2 ^ 32 - 1 - b) + 1) % 2 ^ 32 := by
  simp only [alu_sub]
  have hco : b ^^^ 0xFFFFFFFF = 2 ^ 32 - 1 - b := by
    have := xor_ones_eq_sub (n := 32) hb
    norm_num at this ⊢
    exact this
  rw [hco, ripple_add_result a _ 1 ha (by omega) (by omega)]

/-- Z and C flags of `alu_sub`: equality test and the no-borrow convention. -/
theorem alu_sub_flags (a b : Nat) (ha : a < 2 ^ 32) (hb : b < 2 ^ 32) :
    (alu_sub a b).2.Z = decide (a = b)
      ∧ (alu_sub a b).2.C = decide (b ≤ a) := by
  have hco : b ^^^ 0xFFFFFFFF = 2 ^ 32 - 1 - b := by
    have := xor_ones_eq_sub (n := 32) hb
    norm_num at this ⊢
    exact this
  have hZ := ripple_add_Z a (2 ^ 32 - 1 - b) 1 ha (by omega) (by omega)
  have hC := ripple_add_C a (2 ^ 32 - 1 - b) 1 ha (by omega) (by omega)
  constructor
  · simp only [alu_sub, hco]
    rw [hZ]
    rw [decide_eq_decide]
    omega
  · simp only [alu_sub, hco]
    rw [hC]
    rw [decide_eq_decide]
    omega

/-- The `alu` results are always 32-bit words. -/
theorem alu_results_lt (a b : Nat) (ha : a < 2 ^ 32) (hb : b < 2 ^ 32) :
    (alu_add a b).1 < 2 ^ 32 ∧ (alu_sub a b).1 < 2 ^ 32
      ∧ (alu_mul a b).1 < 2 ^ 32 ∧ (alu_div a b).1 < 2 ^ 32 := by
  refine ⟨?_, ?_, ?_, ?_⟩
  · rw [alu_add_result a b ha hb]
    exact Nat.mod_lt _ (by positivity)
  · rw [alu_sub_result_nat a b ha hb]
    exact Nat.mod_lt _ (by positivity)
  · exact Nat.mod_lt _ (by positivity)
  · exact lt_of_le_of_lt (Nat.div_le_self a b) ha

/-! ## Memory (memory.h / memory.c)

A flat byte array, modelled as a function from byte address to byte value;
all accesses are validated 32-bit word accesses. -/

/-- Memory size: 64 KB (memory.h `MEM_SIZE`). -/
def MEM_SIZE : Nat := 64 * 1024

/-- Word width in bytes (memory.h `MEM_WORD_SIZE`). -/
def MEM_WORD_SIZE : Nat := 4

/-- The two failure kinds distinguished by `check_access`. -/
inductive MemErr
  | alignmentError
  | boundsError
deriving DecidableEq

/-- The byte array of memory.h `Memory`. -/
structure Memory where
  data : Nat → Nat

/-- `mem_init`: all RAM zeroed. -/
def mem_init : Memory := ⟨fun _ => 0⟩

/-- `check_access` from memory.c: alignment first, then bounds
(`addr ≤ MEM_SIZE - MEM_WORD_SIZE`, written to avoid 32-bit overflow). -/
def check_access (addr : Nat) : Except MemErr Unit :=
  if addr % MEM_WORD_SIZE ≠ 0 then .error .alignmentError
  else if addr > MEM_SIZE - MEM_WORD_SIZE then .error .boundsError
  else .ok ()

/-- `mem_read_word` from memory.c: little-endian shift-or assembly. -/
def mem_read_word (mem : Memory) (addr : Nat) : Except MemErr Nat :=
  match check_access addr with
  | .error e => .error e
  | .ok _ =>
      .ok (mem.data addr
        ||| (mem.data (addr + 1)) <<< 8
        ||| (mem.data (addr + 2)) <<< 16
        ||| (mem.data (addr + 3)) <<< 24)

/-- `mem_write_word` from memory.c: little-endian shift-and-mask disassembly. -/
def mem_write_word (mem : Memory) (addr : Nat) (value : Nat) :
    Except MemErr Memory :=
  match check_access addr with
  | .error e => .error e
  | .ok _ =>
      .ok ⟨fun i =>
        if i = addr then value &&& 0xFF
        else if i = addr + 1 then (value >>> 8) &&& 0xFF
        else if i = addr + 2 then (value >>> 16) &&& 0xFF
        else if i = addr + 3 then (value >>> 24) &&& 0xFF
        else mem.data i⟩

/-- `check_access` succeeds exactly on aligned, in-bounds addresses. -/
theorem check_access_ok (addr : Nat) (hal : addr % 4 = 0) (hb : addr ≤ 65532) :
    check_access addr = .ok () := by
  simp only [check_access, MEM_WORD_SIZE, MEM_SIZE]
  rw [if_neg (by omega), if_neg (by omega)]

/-- Bytes stored by `mem_write_word` at `addr + k` are `(v >>> 8k) &&& 0xFF`. -/
theorem mem_write_word_bytes (mem : Memory) (addr v : Nat)
    (hal : addr % 4 = 0) (hb : addr ≤ 65532) :
    ∃ mem', mem_write_word mem addr v = .ok mem'
      ∧ mem'.data addr = v &&& 0xFF
      ∧ mem'.data (addr + 1) = (v >>> 8) &&& 0xFF
      ∧ mem'.data (addr + 2) = (v >>> 16) &&& 0xFF
      ∧ mem'.data (addr + 3) = (v >>> 24) &&& 0xFF
      ∧ ∀ i, i ≠ addr → i ≠ addr + 1 → i ≠ addr + 2 → i ≠ addr + 3 →
          mem'.data i = mem.data i := by
  refine ⟨_, by rw [mem_write_word, check_access_ok addr hal hb], ?_, ?_, ?_, ?_, ?_⟩
  · simp
  · simp
  · simp
  · simp
  · intro i h0 h1 h2 h3
    simp [h0, h1, h2, h3]

/-- Or-ing a block shifted up by `k` over a value below `2 ^ k` is addition. -/
theorem lor_shiftLeft_eq_add {r : Nat} (B k : Nat) (hr : r < 2 ^ k) :
    r ||| B <<< k = r + B * 2 ^ k := by
  rw [Nat.shiftLeft_eq, Nat.lor_comm, Nat.mul_comm B (2 ^ k),
    ← Nat.mul_add_lt_is_or hr B]
  omega

/-- Masking with `0xFF` is reduction mod 256. -/
theorem and_FF_eq_mod (x : Nat) : x &&& 0xFF = x % 2 ^ 8 := by
  have h255 : (0xFF : Nat) = 2 ^ 8 - 1 := by norm_num
  rw [h255, Nat.and_pow_two_sub_one_eq_mod]

/-- Writing then reading an aligned in-range word returns the value:
the little-endian byte round trip. -/
theorem mem_write_read_roundtrip (mem : Memory) (addr v : Nat)
    (hal : addr % 4 = 0) (hb : addr ≤ 65532) (hv : v < 2 ^ 32) :
    ∃ mem', mem_write_word mem addr v = .ok mem'
      ∧ mem_read_word mem' addr = .ok v := by
  obtain ⟨mem', hw, h0, h1, h2, h3, _⟩ := mem_write_word_bytes mem addr v hal hb
  refine ⟨mem', hw, ?_⟩
  rw [mem_read_word, check_access_ok addr hal hb]
  rw [h0, h1, h2, h3]
  have e0 : v &&& 0xFF < 2 ^ 8 := by
    rw [and_FF_eq_mod]; exact Nat.mod_lt _ (by norm_num)
  have e1 : (v >>> 8) &&& 0xFF < 2 ^ 8 := by
    rw [and_FF_eq_mod]; exact Nat.mod_lt _ (by norm_num)
  have e2 : (v >>> 16) &&& 0xFF < 2 ^ 8 := by
    rw [and_FF_eq_mod]; exact Nat.mod_lt _ (by norm_num)
  rw [lor_shiftLeft_eq_add _ 8 (by omega)]
  rw [lor_shiftLeft_eq_add _ 16 (by nlinarith)]
  rw [lor_shiftLeft_eq_add _ 24 (by nlinarith)]
  simp only [and_FF_eq_mod, Nat.shiftRight_eq_div_pow]
  norm_num
  omega

/-! ## AST and reference evaluator (ast.h / eval.c)

Node values are C `long`, modelled as `Int`.  C signed division truncates
toward zero, which is `Int.tdiv`. -/

/-- Operator tag of a binary node (ast.h `BinaryOp`). -/
inductive BinaryOp
  | add
  | sub
  | mul
  | div
deriving DecidableEq

/-- Expression tree (ast.h `Node`): a Number leaf or a BinaryOp node. -/
inductive Node
  | number (value : Int)
  | binary (op : BinaryOp) (left right : Node)
deriving DecidableEq

/-- Evaluation failure statuses of eval.h that `eval` can actually produce
for well-formed trees. -/
inductive EvalErr
  | divZero
deriving DecidableEq

/-- The tree-walking reference evaluator `eval` from eval.c, on host-signed
(`long`) arithmetic; division by zero is the only failure. -/
def eval : Node → Except EvalErr Int
  | .number v => .ok v
  | .binary op l r =>
      match eval l with
      | .error e => .error e
      | .ok lv =>
          match eval r with
          | .error e => .error e
          | .ok rv =>
              match op with
              | .add => .ok (lv + rv)
              | .sub => .ok (lv - rv)
              | .mul => .ok (lv * rv)
              | .div => if rv = 0 then .error .divZero else .ok (lv.tdiv rv)

/-! ## IR (ir.h) -/

/-- The opcode set (ir.h `IROpcode`). -/
inductive IROpcode
  | loadConst
  | add
  | sub
  | mul
  | div
  | cmp
  | jmp
  | jz
  | jnz
  | load
  | store
deriving DecidableEq

/-- A single IR instruction (ir.h `IRInstr`).  Register indices, branch
targets (C `int`) are `Int`; the immediate (C `long`) is `Int`.  Fields
irrelevant to an opcode default to zero, as in the C zero-initialisation. -/
structure IRInstr where
  op : IROpcode
  dst : Int := 0
  src : Int := 0
  imm : Int := 0
  target : Int := 0
  addr : Int := 0
deriving DecidableEq

/-! ## CPU (cpu.h / cpu.c) -/

/-- Register-file size (cpu.h `CPU_MAX_REGS`). -/
def CPU_MAX_REGS : Nat := 32

/-- Infinite-loop guard bound (cpu.h `CPU_MAX_STEPS`). -/
def CPU_MAX_STEPS : Nat := 1000000

/-- The distinct error conditions reported by `cpu_execute` (each is a
distinct stderr message followed by `return -1` in cpu.c). -/
inductive CpuErr
  | emptyProgram
  | registerOutOfRange
  | branchOutOfRange
  | divisionByZero
  | infiniteLoopGuard
  | memoryNotAttached
  | memError (e : MemErr)
deriving DecidableEq

/-- CPU state during execution: the register file, flags, last written
destination register, and the borrowed memory (`NULL` allowed). -/
structure CPUState where
  regs : Nat → Nat
  flags : ALUFlags
  lastDst : Nat
  mem : Option Memory

/-- `check_reg` from cpu.c: a register index must lie in `[0, CPU_MAX_REGS)`. -/
def check_reg (r : Int) : Except CpuErr Unit :=
  if r < 0 ∨ (CPU_MAX_REGS : Int) ≤ r then .error .registerOutOfRange else .ok ()

/-- `check_target` from cpu.c: a branch target must lie in
`[0, prog_count]`; `prog_count` itself is a legal halt-by-jump. -/
def check_target (target : Int) (prog_count : Nat) : Except CpuErr Unit :=
  if target < 0 ∨ (prog_count : Int) < target then .error .branchOutOfRange
  else .ok ()

/-- Point update of the register file. -/
def setReg (regs : Nat → Nat) (d v : Nat) : Nat → Nat :=
  fun i => if i = d then v else regs i

/-- One dispatch of the `switch` in `cpu_execute`: execute instruction `i`
fetched at `pc`, returning the next state and next pc, or an error. -/
def cpuStep (prog_count : Nat) (pc : Nat) (i : IRInstr) (st : CPUState) :
    Except CpuErr (CPUState × Nat) :=
  match i.op with
  | .loadConst =>
      match check_reg i.dst with
      | .error e => .error e
      | .ok _ =>
          let d := i.dst.toNat
          .ok ({ st with regs := setReg st.regs d (i.imm % (2 ^ 32 : Int)).toNat
                         lastDst := d }, pc + 1)
  | .add =>
      match check_reg i.dst with
      | .error e => .error e
      | .ok _ =>
          match check_reg i.src with
          | .error e => .error e
          | .ok _ =>
              let d := i.dst.toNat
              let s := i.src.toNat
              let r := alu_add (st.regs d) (st.regs s)
              .ok ({ st with regs := setReg st.regs d r.1
                             flags := r.2
                             lastDst := d }, pc + 1)
  | .sub =>
      match check_reg i.dst with
      | .error e => .error e
      | .ok _ =>
          match check_reg i.src with
          | .error e => .error e
          | .ok _ =>
              let d := i.dst.toNat
              let s := i.src.toNat
              let r := alu_sub (st.regs d) (st.regs s)
              .ok ({ st with regs := setReg st.regs d r.1
                             flags := r.2
                             lastDst := d }, pc + 1)
  | .mul =>
      match check_reg i.dst with
      | .error e => .error e
      | .ok _ =>
          match check_reg i.src with
          | .error e => .error e
          | .ok _ =>
              let d := i.dst.toNat
              let s := i.src.toNat
              let r := alu_mul (st.regs d) (st.regs s)
              .ok ({ st with regs := setReg st.regs d r.1
                             flags := r.2
                             lastDst := d }, pc + 1)
  | .div =>
      match check_reg i.dst with
      | .error e => .error e
      | .ok _ =>
          match check_reg i.src with
          | .error e => .error e
          | .ok _ =>
              let d := i.dst.toNat
              let s := i.src.toNat
              if st.regs s = 0 then .error .divisionByZero
              else
                let r := alu_div (st.regs d) (st.regs s)
                .ok ({ st with regs := setReg st.regs d r.1
                               flags := r.2
                               lastDst := d }, pc + 1)
  | .cmp =>
      match check_reg i.dst with
      | .error e => .error e
      | .ok _ =>
          match check_reg i.src with
          | .error e => .error e
          | .ok _ =>
              let d := i.dst.toNat
              let s := i.src.toNat
              let r := alu_sub (st.regs d) (st.regs s)
              .ok ({ st with flags := r.2 }, pc + 1)
  | .jmp =>
      match check_target i.target prog_count with
      | .error e => .error e
      | .ok _ => .ok (st, i.target.toNat)
  | .jz =>
      if st.flags.Z then
        match check_target i.target prog_count with
        | .error e => .error e
        | .ok _ => .ok (st, i.target.toNat)
      else .ok (st, pc + 1)
  | .jnz =>
      if st.flags.Z then .ok (st, pc + 1)
      else
        match check_target i.target prog_count with
        | .error e => .error e
        | .ok _ => .ok (st, i.target.toNat)
  | .load =>
      match check_reg i.dst with
      | .error e => .error e
      | .ok _ =>
          match check_reg i.addr with
          | .error e => .error e
          | .ok _ =>
              match st.mem with
              | none => .error .memoryNotAttached
              | some m =>
                  match mem_read_word m (st.regs i.addr.toNat) with
                  | .error e => .error (.memError e)
                  | .ok v =>
                      let d := i.dst.toNat
                      .ok ({ st with regs := setReg st.regs d v
                                     lastDst := d }, pc + 1)
  | .store =>
      match check_reg i.src with
      | .error e => .error e
      | .ok _ =>
          match check_reg i.addr with
          | .error e => .error e
          | .ok _ =>
              match st.mem with
              | none => .error .memoryNotAttached
              | some m =>
                  match mem_write_word m (st.regs i.addr.toNat)
                      (st.regs i.src.toNat) with
                  | .error e => .error (.memError e)
                  | .ok m2 => .ok ({ st with mem := some m2 }, pc + 1)

/-- The PC-driven fetch-decode-execute loop of `cpu_execute`; `fuel` is the
number of loop iterations still allowed before the step counter exceeds
`CPU_MAX_STEPS`. -/
def cpuRun (prog : List IRInstr) (fuel pc : Nat) (st : CPUState) :
    Except CpuErr CPUState :=
  if h : pc < prog.length then
    match fuel with
    | 0 => .error .infiniteLoopGuard
    | fuel' + 1 =>
        match cpuStep prog.length pc (prog.get ⟨pc, h⟩) st with
        | .error e => .error e
        | .ok (st', pc') => cpuRun prog fuel' pc' st'
  else .ok st

/-- Sign extension of a 32-bit word into a C `long`
(the `(long)(int32_t)` cast on the final result). -/
def toSigned (w : Nat) : Int :=
  if w < 2 ^ 31 then (w : Int) else (w : Int) - 2 ^ 32

/-- The freshly zeroed CPU built by `cpu_execute` (memset to 0). -/
def initState (mem : Option Memory) : CPUState :=
  { regs := fun _ => 0
    flags := { Z := false, N := false, C := false, V := false }
    lastDst := 0
    mem := mem }

/-- `cpu_execute` from cpu.c: reject empty programs, run the loop on a
zeroed CPU, and return the sign-extended last-written register. -/
def cpu_execute (prog : List IRInstr) (mem : Option Memory) :
    Except CpuErr Int :=
  if prog.length = 0 then .error .emptyProgram
  else
    match cpuRun prog CPU_MAX_STEPS 0 (initState mem) with
    | .error e => .error e
    | .ok st => .ok (toSigned (st.regs st.lastDst))

/-! ## Code generator (codegen.c) -/

/-- `ast_op_to_ir` from codegen.c. -/
def ast_op_to_ir : BinaryOp → IROpcode
  | .add => .add
  | .sub => .sub
  | .mul => .mul
  | .div => .div

/-- `codegen_expr` from codegen.c, with the `Codegen` state made explicit:
input the next free register, output `(emitted code, result register,
next free register)`.  A Number leaf allocates a fresh register and emits
`LoadConst`; a BinaryOp lowers left then right and emits the mapped opcode
with `dst` the left register. -/
def codegen_expr : Node → Nat → List IRInstr × Nat × Nat
  | .number v, next_reg =>
      ([{ op := .loadConst, dst := (next_reg : Int), imm := v }],
       next_reg, next_reg + 1)
  | .binary op l r, next_reg =>
      let cl := codegen_expr l next_reg
      let cr := codegen_expr r cl.2.2
      (cl.1 ++ cr.1
         ++ [{ op := ast_op_to_ir op
               dst := (cl.2.1 : Int)
               src := (cr.2.1 : Int) }],
       cl.2.1, cr.2.2)

/-- Compile a whole tree with `codegen_init` (counter starts at 0). -/
def codegen (t : Node) : List IRInstr :=
  (codegen_expr t 0).1

/-- Number of Number leaves of a tree = number of registers codegen uses. -/
def leafCount : Node → Nat
  | .number _ => 1
  | .binary _ l r => leafCount l + leafCount r

/-- Number of nodes of a tree = number of instructions codegen emits. -/
def nodeCount : Node → Nat
  | .number _ => 1
  | .binary _ l r => nodeCount l + nodeCount r + 1

/-- A tree whose division operands (if any) evaluate into `[0, 2^32)`:
under this condition the CPU's unsigned 32-bit division agrees with the
evaluator's host-signed division. -/
def inWordRange : Except EvalErr Int → Bool
  | .ok v => decide (0 ≤ v ∧ v < 2 ^ 32)
  | .error _ => true

/-- Every `Div` node's operands evaluate into the unsigned 32-bit range. -/
def divSafe : Node → Bool
  | .number _ => true
  | .binary .div l r =>
      divSafe l && divSafe r && inWordRange (eval l) && inWordRange (eval r)
  | .binary _ l r => divSafe l && divSafe r

/-- A tree with no `Div` node at all. -/
def divFree : Node → Bool
  | .number _ => true
  | .binary .div _ _ => false
  | .binary _ l r => divFree l && divFree r

/-- The register returned by `codegen_expr` is the first one it allocates. -/
theorem codegen_expr_ret (t : Node) (n : Nat) :
    (codegen_expr t n).2.1 = n := by
  induction t generalizing n with
  | number v => rfl
  | binary op l r ihl ihr => simp [codegen_expr, ihl]

/-- The counter after `codegen_expr` has advanced by one per leaf. -/
theorem codegen_expr_next (t : Node) (n : Nat) :
    (codegen_expr t n).2.2 = n + leafCount t := by
  induction t generalizing n with
  | number v => rfl
  | binary op l r ihl ihr =>
      simp [codegen_expr, leafCount, ihl, ihr]
      omega

/-- `codegen_expr` emits one instruction per node. -/
theorem codegen_expr_length (t : Node) (n : Nat) :
    (codegen_expr t n).1.length = nodeCount t := by
  induction t generalizing n with
  | number v => rfl
  | binary op l r ihl ihr =>
      simp [codegen_expr, nodeCount, ihl, ihr]
      omega

/-- Every tree has at least one leaf. -/
theorem leafCount_pos (t : Node) : 1 ≤ leafCount t := by
  induction t with
  | number v => exact le_refl 1
  | binary op l r ihl ihr => simp [leafCount]; omega

/-- Node count in terms of leaf count: a strict binary tree. -/
theorem nodeCount_eq (t : Node) : nodeCount t + 1 = 2 * leafCount t := by
  induction t with
  | number v => rfl
  | binary op l r ihl ihr => simp [nodeCount, leafCount]; omega

/-! ## Execution-loop helper lemmas -/

/-- Unfold one loop iteration of `cpuRun` at an in-range pc. -/
theorem cpuRun_step (prog : List IRInstr) (fuel pc : Nat) (st : CPUState)
    (h : pc < prog.length) :
    cpuRun prog (fuel + 1) pc st
      = match cpuStep prog.length pc (prog.get ⟨pc, h⟩) st with
        | .error e => .error e
        | .ok (st', pc') => cpuRun prog fuel pc' st' := by
  rw [cpuRun, dif_pos h]

/-- `cpuRun` with exhausted fuel at an in-range pc trips the guard. -/
theorem cpuRun_guard (prog : List IRInstr) (pc : Nat) (st : CPUState)
    (h : pc < prog.length) :
    cpuRun prog 0 pc st = .error .infiniteLoopGuard := by
  rw [cpuRun, dif_pos h]

/-- `cpuRun` halts normally once the pc reaches the program length. -/
theorem cpuRun_done (prog : List IRInstr) (fuel pc : Nat) (st : CPUState)
    (h : ¬ pc < prog.length) :
    cpuRun prog fuel pc st = .ok st := by
  rw [cpuRun, dif_neg h]

/-- Fetching at the junction of an append returns the junction element. -/
theorem fetch_at (pre : List IRInstr) (x : IRInstr) (post : List IRInstr)
    (h : pre.length < (pre ++ x :: post).length) :
    (pre ++ x :: post).get ⟨pre.length, h⟩ = x := by
  rw [List.get_eq_getElem, List.getElem_append_right (le_refl pre.length)]
  simp

/-- `check_reg` succeeds on a natural register index below `CPU_MAX_REGS`. -/
theorem check_reg_ok (n : Nat) (h : n < 32) : check_reg (n : Int) = .ok () := by
  have hc : ¬ ((n : Int) < 0 ∨ (CPU_MAX_REGS : Int) ≤ (n : Int)) := by
    simp only [CPU_MAX_REGS]
    omega
  rw [check_reg, if_neg hc]

/-- `check_reg` fails on a register index at or above `CPU_MAX_REGS`. -/
theorem check_reg_fail (n : Nat) (h : 32 ≤ n) :
    check_reg (n : Int) = .error .registerOutOfRange := by
  have hc : (n : Int) < 0 ∨ (CPU_MAX_REGS : Int) ≤ (n : Int) := by
    simp only [CPU_MAX_REGS]
    omega
  rw [check_reg, if_pos hc]

/-- 32-bit congruence transport for `alu_add`. -/
theorem word_add_congr (lv rv : Int) (a b : Nat)
    (ha : a = (lv % (2 ^ 32 : Int)).toNat) (hb : b = (rv % (2 ^ 32 : Int)).toNat) :
    (alu_add a b).1 = ((lv + rv) % (2 ^ 32 : Int)).toNat := by
  have ha' : a < 2 ^ 32 := by omega
  have hb' : b < 2 ^ 32 := by omega
  rw [alu_add_result a b ha' hb']
  omega

/-- 32-bit congruence transport for `alu_sub`. -/
theorem word_sub_congr (lv rv : Int) (a b : Nat)
    (ha : a = (lv % (2 ^ 32 : Int)).toNat) (hb : b = (rv % (2 ^ 32 : Int)).toNat) :
    (alu_sub a b).1 = ((lv - rv) % (2 ^ 32 : Int)).toNat := by
  have ha' : a < 2 ^ 32 := by omega
  have hb' : b < 2 ^ 32 := by omega
  rw [alu_sub_result_nat a b ha' hb']
  omega

/-- 32-bit congruence transport for `alu_mul`. -/
theorem word_mul_congr (lv rv : Int) (a b : Nat)
    (ha : a = (lv % (2 ^ 32 : Int)).toNat) (hb : b = (rv % (2 ^ 32 : Int)).toNat) :
    (alu_mul a b).1 = ((lv * rv) % (2 ^ 32 : Int)).toNat := by
  have hm : (2 : Int) ^ 32 ≠ 0 := by norm_num
  have hpos : (0 : Int) < 2 ^ 32 := by norm_num
  have hcast : ((alu_mul a b).1 : Int) = ((lv * rv) % (2 ^ 32 : Int)) := by
    show (((a * b) % 2 ^ 32 : Nat) : Int) = (lv * rv) % (2 ^ 32 : Int)
    have haI : (a : Int) = lv % 4294967296 := by omega
    have hbI : (b : Int) = rv % 4294967296 := by omega
    push_cast
    rw [haI, hbI, ← Int.mul_emod]
  omega

/-- Exact agreement of `alu_div` with truncating signed division when both
operands lie in `[0, 2^32)`. -/
theorem word_div_exact (lv rv : Int) (a b : Nat)
    (ha : a = (lv % (2 ^ 32 : Int)).toNat) (hb : b = (rv % (2 ^ 32 : Int)).toNat)
    (hlv : 0 ≤ lv ∧ lv < 2 ^ 32) (hrv : 0 ≤ rv ∧ rv < 2 ^ 32) :
    (alu_div a b).1 = ((lv.tdiv rv) % (2 ^ 32 : Int)).toNat := by
  have haE : (a : Int) = lv := by
    rw [ha, Int.emod_eq_of_lt hlv.1 hlv.2, Int.toNat_of_nonneg hlv.1]
  have hbE : (b : Int) = rv := by
    rw [hb, Int.emod_eq_of_lt hrv.1 hrv.2, Int.toNat_of_nonneg hrv.1]
  have htd : lv.tdiv rv = (a : Int) / (b : Int) := by
    rw [haE, hbE]
    exact Int.tdiv_eq_ediv hlv.1 hrv.1
  have hdiv : lv.tdiv rv = ((a / b : Nat) : Int) := by
    rw [htd, Int.ofNat_ediv]
  show a / b = ((lv.tdiv rv) % (2 ^ 32 : Int)).toNat
  rw [hdiv]
  have hab : a / b ≤ a := Nat.div_le_self a b
  have haLt : a < 2 ^ 32 := by omega
  have hlt : a / b < 2 ^ 32 := lt_of_le_of_lt hab haLt
  have h0 : (((a / b : Nat) : Int)) % (2 ^ 32 : Int) = ((a / b : Nat) : Int) :=
    Int.emod_eq_of_lt (by positivity) (by exact_mod_cast hlt)
  rw [h0, Int.toNat_ofNat]

/-- The ALU operation the CPU runs for each arithmetic opcode. -/
def aluOp : BinaryOp → Nat → Nat → Nat × ALUFlags
  | .add => alu_add
  | .sub => alu_sub
  | .mul => alu_mul
  | .div => alu_div

/-- `cpuStep` on `LoadConst` with a valid destination register. -/
theorem cpuStep_loadConst (pcount pc : Nat) (d : Nat) (hd : d < 32)
    (imm : Int) (st : CPUState) :
    cpuStep pcount pc { op := .loadConst, dst := (d : Int), imm := imm } st
      = .ok ({ st with regs := setReg st.regs d ((imm % (2 ^ 32 : Int)).toNat)
                       lastDst := d }, pc + 1) := by
  simp only [cpuStep]
  rw [check_reg_ok d hd]
  simp

/-- `cpuStep` on an arithmetic opcode with valid registers (and a non-zero
divisor when dividing): the ALU result is written to `dst`. -/
theorem cpuStep_arith (pcount pc : Nat) (d s : Nat) (hd : d < 32) (hs : s < 32)
    (bop : BinaryOp) (st : CPUState) (hnz : bop = .div → st.regs s ≠ 0) :
    cpuStep pcount pc { op := ast_op_to_ir bop, dst := (d : Int), src := (s : Int) } st
      = .ok ({ st with regs := setReg st.regs d (aluOp bop (st.regs d) (st.regs s)).1
                       flags := (aluOp bop (st.regs d) (st.regs s)).2
                       lastDst := d }, pc + 1) := by
  cases bop with
  | add =>
      simp only [ast_op_to_ir, cpuStep]
      rw [check_reg_ok d hd, check_reg_ok s hs]
      simp [aluOp]
  | sub =>
      simp only [ast_op_to_ir, cpuStep]
      rw [check_reg_ok d hd, check_reg_ok s hs]
      simp [aluOp]
  | mul =>
      simp only [ast_op_to_ir, cpuStep]
      rw [check_reg_ok d hd, check_reg_ok s hs]
      simp [aluOp]
  | div =>
      simp only [ast_op_to_ir, cpuStep]
      rw [check_reg_ok d hd, check_reg_ok s hs]
      simp only [Int.toNat_ofNat]
      rw [if_neg (hnz rfl)]
      simp [aluOp]

/-- `divSafe` descends to the left child. -/
theorem divSafe_left {op : BinaryOp} {l r : Node}
    (h : divSafe (.binary op l r) = true) : divSafe l = true := by
  cases op <;> simp only [divSafe, Bool.and_eq_true] at h <;> tauto

/-- `divSafe` descends to the right child. -/
theorem divSafe_right {op : BinaryOp} {l r : Node}
    (h : divSafe (.binary op l r) = true) : divSafe r = true := by
  cases op <;> simp only [divSafe, Bool.and_eq_true] at h <;> tauto

/-- At a `Div` node, `divSafe` bounds both operands' reference values. -/
theorem divSafe_div {l r : Node} {lv rv : Int}
    (h : divSafe (.binary .div l r) = true)
    (hl : eval l = .ok lv) (hr : eval r = .ok rv) :
    (0 ≤ lv ∧ lv < 2 ^ 32) ∧ (0 ≤ rv ∧ rv < 2 ^ 32) := by
  simp only [divSafe, Bool.and_eq_true] at h
  obtain ⟨⟨_, hwl⟩, hwr⟩ := h
  rw [hl] at hwl
  rw [hr] at hwr
  simp only [inWordRange, decide_eq_true_eq] at hwl hwr
  exact ⟨hwl, hwr⟩

/-- Evaluation of a binary node yields evaluations of both children. -/
theorem eval_binary_ok {op : BinaryOp} {l r : Node} {v : Int}
    (h : eval (.binary op l r) = .ok v) :
    ∃ lv rv, eval l = .ok lv ∧ eval r = .ok rv := by
  rcases hl : eval l with el | lv
  · rw [eval, hl] at h
    exact absurd h (by simp)
  · rcases hr : eval r with er | rv
    · rw [eval, hl, hr] at h
      exact absurd h (by simp)
    · exact ⟨lv, rv, rfl, rfl⟩

/-- The value of a binary node in terms of its children's values. -/
theorem eval_binary_value {op : BinaryOp} {l r : Node} {v lv rv : Int}
    (h : eval (.binary op l r) = .ok v)
    (hl : eval l = .ok lv) (hr : eval r = .ok rv) :
    (op = .add → v = lv + rv) ∧ (op = .sub → v = lv - rv)
      ∧ (op = .mul → v = lv * rv)
      ∧ (op = .div → rv ≠ 0 ∧ v = lv.tdiv rv) := by
  rw [eval, hl, hr] at h
  cases op with
  | add =>
      simp only [Except.ok.injEq] at h
      exact ⟨fun _ => h.symm, by simp, by simp, by simp⟩
  | sub =>
      simp only [Except.ok.injEq] at h
      exact ⟨by simp, fun _ => h.symm, by simp, by simp⟩
  | mul =>
      simp only [Except.ok.injEq] at h
      exact ⟨by simp, by simp, fun _ => h.symm, by simp⟩
  | div =>
      by_cases hz : rv = 0
      · rw [hz] at h
        simp at h
      · simp only [if_neg hz, Except.ok.injEq] at h
        exact ⟨by simp, by simp, by simp, fun _ => ⟨hz, h.symm⟩⟩

/-- Fetch through a split equation for the program list. -/
theorem fetch_of_split (prog pre post : List IRInstr) (x : IRInstr) (pc : Nat)
    (hsplit : prog = pre ++ x :: post) (hpc : pc = pre.length)
    (h : pc < prog.length) :
    prog.get ⟨pc, h⟩ = x := by
  subst hsplit
  subst hpc
  exact fetch_at pre x post h

/-- Every ALU operation keeps its result below `2 ^ 32`. -/
theorem aluOp_lt (bop : BinaryOp) (x y : Nat) (hx : x < 2 ^ 32)
    (hy : y < 2 ^ 32) : (aluOp bop x y).1 < 2 ^ 32 := by
  cases bop
  exacts [(alu_results_lt x y hx hy).1, (alu_results_lt x y hx hy).2.1,
    (alu_results_lt x y hx hy).2.2.1, (alu_results_lt x y hx hy).2.2.2]

/-- Compiler-correctness simulation: executing the code emitted for `t`
(compiled with next register `base`) from the instruction index just past
`pre` advances the pc over that code and lands in a state whose register
`base` holds the 32-bit image of the reference value of `t`; registers
below `base` are untouched, memory is untouched, and the last written
destination is `base`. -/
theorem codegen_expr_sim (t : Node) :
    ∀ (base : Nat) (v : Int) (prog pre post : List IRInstr)
      (st : CPUState) (fuel : Nat),
      prog = pre ++ (codegen_expr t base).1 ++ post →
      eval t = .ok v →
      divSafe t = true →
      base + leafCount t ≤ 32 →
      (∀ i, st.regs i < 2 ^ 32) →
      nodeCount t ≤ fuel →
      ∃ st' : CPUState,
        cpuRun prog fuel pre.length st
            = cpuRun prog (fuel - nodeCount t) (pre.length + nodeCount t) st'
          ∧ st'.regs base = (v % (2 ^ 32 : Int)).toNat
          ∧ (∀ i, i < base → st'.regs i = st.regs i)
          ∧ (∀ i, st'.regs i < 2 ^ 32)
          ∧ st'.mem = st.mem
          ∧ st'.lastDst = base := by
  induction t with
  | number w =>
      intro base v prog pre post st fuel hsplit hev hsafe hfit hregs hfuel
      have hv : v = w := by
        simp only [eval] at hev
        exact (Except.ok.inj hev).symm
      subst hv
      simp only [leafCount] at hfit
      simp only [nodeCount] at hfuel ⊢
      obtain ⟨f, rfl⟩ : ∃ f, fuel = f + 1 := ⟨fuel - 1, by omega⟩
      simp only [codegen_expr] at hsplit
      have hpc : pre.length < prog.length := by
        rw [hsplit]; simp
      have hget : prog.get ⟨pre.length, hpc⟩
          = { op := .loadConst, dst := (base : Int), imm := v } :=
        fetch_of_split prog pre post _ pre.length (by rw [hsplit]; simp) rfl hpc
      refine ⟨{ st with regs := setReg st.regs base ((v % (2 ^ 32 : Int)).toNat)
                        lastDst := base }, ?_, ?_, ?_, ?_, rfl, rfl⟩
      · rw [cpuRun_step prog f pre.length st hpc, hget,
          cpuStep_loadConst prog.length pre.length base (by omega) v st]
        simp
      · simp [setReg]
      · intro i hi
        simp [setReg, Nat.ne_of_lt hi]
      · intro i
        by_cases hib : i = base
        · rw [hib]
          simp only [setReg, ite_true, if_true]
          omega
        · simp only [setReg]
          rw [if_neg hib]
          exact hregs i
  | binary op l r ihl ihr =>
      intro base v prog pre post st fuel hsplit hev hsafe hfit hregs hfuel
      obtain ⟨lv, rv, hl, hr⟩ := eval_binary_ok hev
      have hvals := eval_binary_value hev hl hr
      have hll := leafCount_pos l
      have hlr := leafCount_pos r
      simp only [leafCount] at hfit
      simp only [nodeCount] at hfuel ⊢
      simp only [codegen_expr] at hsplit
      rw [codegen_expr_ret l base, codegen_expr_ret r,
        codegen_expr_next l base] at hsplit
      set L := (codegen_expr l base).1 with hLdef
      set R := (codegen_expr r (base + leafCount l)).1 with hRdef
      set inst : IRInstr :=
        { op := ast_op_to_ir op
          dst := (base : Int)
          src := ((base + leafCount l : Nat) : Int) } with hinst
      have hLlen : L.length = nodeCount l := codegen_expr_length l base
      have hRlen : R.length = nodeCount r :=
        codegen_expr_length r (base + leafCount l)
      have hsplit1 : prog = pre ++ L ++ (R ++ [inst] ++ post) := by
        rw [hsplit]; simp [List.append_assoc]
      obtain ⟨st1, E1, h1base, h1frame, h1bound, h1mem, h1last⟩ :=
        ihl base lv prog pre (R ++ [inst] ++ post) st fuel hsplit1 hl
          (divSafe_left hsafe) (by omega) hregs (by omega)
      have hsplit2 : prog = (pre ++ L) ++ R ++ ([inst] ++ post) := by
        rw [hsplit]; simp [List.append_assoc]
      obtain ⟨st2, E2, h2base, h2frame, h2bound, h2mem, h2last⟩ :=
        ihr (base + leafCount l) rv prog (pre ++ L) ([inst] ++ post) st1
          (fuel - nodeCount l) hsplit2 hr (divSafe_right hsafe) (by omega)
          h1bound (by omega)
      rw [List.length_append, hLlen] at E2
      have ha : st2.regs base = (lv % (2 ^ 32 : Int)).toNat := by
        rw [h2frame base (by omega), h1base]
      have hb : st2.regs (base + leafCount l) = (rv % (2 ^ 32 : Int)).toNat :=
        h2base
      have hres : (aluOp op (st2.regs base) (st2.regs (base + leafCount l))).1
            = (v % (2 ^ 32 : Int)).toNat
          ∧ (op = BinaryOp.div → st2.regs (base + leafCount l) ≠ 0) := by
        cases op with
        | add =>
            refine ⟨?_, by simp⟩
            rw [show aluOp BinaryOp.add = alu_add from rfl,
              word_add_congr lv rv _ _ ha hb, hvals.1 rfl]
        | sub =>
            refine ⟨?_, by simp⟩
            rw [show aluOp BinaryOp.sub = alu_sub from rfl,
              word_sub_congr lv rv _ _ ha hb, hvals.2.1 rfl]
        | mul =>
            refine ⟨?_, by simp⟩
            rw [show aluOp BinaryOp.mul = alu_mul from rfl,
              word_mul_congr lv rv _ _ ha hb, hvals.2.2.1 rfl]
        | div =>
            obtain ⟨hrz, hveq⟩ := hvals.2.2.2 rfl
            obtain ⟨hlw, hrw⟩ := divSafe_div hsafe hl hr
            have hnz : st2.regs (base + leafCount l) ≠ 0 := by
              rw [hb]; omega
            refine ⟨?_, fun _ => hnz⟩
            rw [show aluOp BinaryOp.div = alu_div from rfl,
              word_div_exact lv rv _ _ ha hb hlw hrw, hveq]
      set pc2 := pre.length + nodeCount l + nodeCount r with hpc2def
      have hsplit3 : prog = (pre ++ L ++ R) ++ inst :: post := by
        rw [hsplit]; simp [List.append_assoc]
      have hlen3 : prog.length
          = pre.length + L.length + (R.length + (post.length + 1)) := by
        rw [hsplit3]
        simp only [List.length_append, List.length_cons]
        omega
      have hpc2 : pc2 < prog.length := by omega
      have hget : prog.get ⟨pc2, hpc2⟩ = inst :=
        fetch_of_split prog (pre ++ L ++ R) post inst pc2 hsplit3
          (by simp [hLlen, hRlen, hpc2def]; omega) hpc2
      obtain ⟨f2, hf2⟩ : ∃ f2, fuel - nodeCount l - nodeCount r = f2 + 1 :=
        ⟨fuel - nodeCount l - nodeCount r - 1, by omega⟩
      have hstep :
          cpuStep prog.length pc2 inst st2
            = .ok ({ st2 with
                regs := setReg st2.regs base
                  (aluOp op (st2.regs base) (st2.regs (base + leafCount l))).1
                flags := (aluOp op (st2.regs base)
                  (st2.regs (base + leafCount l))).2
                lastDst := base }, pc2 + 1) := by
        rw [hinst]
        exact cpuStep_arith prog.length pc2 base (base + leafCount l)
          (by omega) (by omega) op st2 hres.2
      refine ⟨{ st2 with
          regs := setReg st2.regs base
            (aluOp op (st2.regs base) (st2.regs (base + leafCount l))).1
          flags := (aluOp op (st2.regs base) (st2.regs (base + leafCount l))).2
          lastDst := base }, ?_, ?_, ?_, ?_, ?_, rfl⟩
      · rw [E1, E2, hf2, cpuRun_step prog f2 pc2 st2 hpc2, hget, hstep]
        have harg : fuel - (nodeCount l + nodeCount r + 1) = f2 := by omega
        have harg2 : pre.length + (nodeCount l + nodeCount r + 1) = pc2 + 1 := by
          omega
        rw [harg, harg2]
      · simp only [setReg, ite_true, if_true]
        exact hres.1
      · intro i hi
        simp only [setReg]
        rw [if_neg (Nat.ne_of_lt hi), h2frame i (by omega), h1frame i hi]
      · intro i
        by_cases hib : i = base
        · rw [hib]
          simp only [setReg, ite_true, if_true]
          exact aluOp_lt op _ _ (h2bound base) (h2bound (base + leafCount l))
        · simp only [setReg]
          rw [if_neg hib]
          exact h2bound i
      · show st2.mem = st.mem
        rw [h2mem, h1mem]

/-- Top-level compiler correctness: for a tree whose reference value exists,
whose division operands (if any) are 32-bit clean, and which uses at most 32
registers, `cpu_execute` of the compiled program returns normally with the
sign-extended 32-bit image of the reference value. -/
theorem cpu_agrees_with_eval (t : Node) (v : Int) (mem : Option Memory)
    (hev : eval t = .ok v) (hsafe : divSafe t = true)
    (hleaf : leafCount t ≤ 32) :
    cpu_execute (codegen t) mem
      = .ok (toSigned ((v % (2 ^ 32 : Int)).toNat)) := by
  have hnc := nodeCount_eq t
  have hlc := leafCount_pos t
  have hlen : (codegen t).length = nodeCount t := codegen_expr_length t 0
  obtain ⟨st', E, hbase, hfr, hbd, hm, hlast⟩ :=
    codegen_expr_sim t 0 v (codegen t) [] [] (initState mem) CPU_MAX_STEPS
      (by simp [codegen]) hev hsafe (by omega)
      (fun i => by simp [initState])
      (by simp only [CPU_MAX_STEPS]; omega)
  simp only [List.length_nil, Nat.zero_add] at E
  rw [cpu_execute, if_neg (by omega), E, cpuRun_done _ _ _ _ (by omega)]
  simp only [hlast, hbase]

/-- `divFree` trees always evaluate successfully. -/
theorem divFree_eval (t : Node) (h : divFree t = true) :
    ∃ v, eval t = .ok v := by
  induction t with
  | number w => exact ⟨w, rfl⟩
  | binary op l r ihl ihr =>
      cases op with
      | div => simp [divFree] at h
      | add =>
          simp only [divFree, Bool.and_eq_true] at h
          obtain ⟨lv, hl⟩ := ihl h.1
          obtain ⟨rv, hr⟩ := ihr h.2
          exact ⟨lv + rv, by rw [eval, hl, hr]⟩
      | sub =>
          simp only [divFree, Bool.and_eq_true] at h
          obtain ⟨lv, hl⟩ := ihl h.1
          obtain ⟨rv, hr⟩ := ihr h.2
          exact ⟨lv - rv, by rw [eval, hl, hr]⟩
      | mul =>
          simp only [divFree, Bool.and_eq_true] at h
          obtain ⟨lv, hl⟩ := ihl h.1
          obtain ⟨rv, hr⟩ := ihr h.2
          exact ⟨lv * rv, by rw [eval, hl, hr]⟩

/-- `divFree` trees are trivially `divSafe`. -/
theorem divFree_divSafe (t : Node) (h : divFree t = true) :
    divSafe t = true := by
  induction t with
  | number w => rfl
  | binary op l r ihl ihr =>
      cases op with
      | div => simp [divFree] at h
      | add =>
          simp only [divFree, Bool.and_eq_true] at h
          simp only [divSafe, Bool.and_eq_true]
          exact ⟨ihl h.1, ihr h.2⟩
      | sub =>
          simp only [divFree, Bool.and_eq_true] at h
          simp only [divSafe, Bool.and_eq_true]
          exact ⟨ihl h.1, ihr h.2⟩
      | mul =>
          simp only [divFree, Bool.and_eq_true] at h
          simp only [divSafe, Bool.and_eq_true]
          exact ⟨ihl h.1, ihr h.2⟩

/-- `cpuStep` on `LoadConst` with an out-of-range destination register. -/
theorem cpuStep_loadConst_fail (pcount pc : Nat) (d : Nat) (hd : 32 ≤ d)
    (imm : Int) (st : CPUState) :
    cpuStep pcount pc { op := .loadConst, dst := (d : Int), imm := imm } st
      = .error .registerOutOfRange := by
  simp only [cpuStep]
  rw [check_reg_fail d hd]

/-- Error simulation: a sub-tree compiled at a base that would push the
register counter past 32 makes the CPU fail with `registerOutOfRange`
(for `divFree` trees, where no earlier division error can pre-empt it). -/
theorem codegen_expr_overflow (t : Node) :
    ∀ (base : Nat) (prog pre post : List IRInstr) (st : CPUState) (fuel : Nat),
      prog = pre ++ (codegen_expr t base).1 ++ post →
      divFree t = true →
      32 < base + leafCount t →
      (∀ i, st.regs i < 2 ^ 32) →
      2 * (33 - base) + 1 ≤ fuel →
      cpuRun prog fuel pre.length st = .error .registerOutOfRange := by
  induction t with
  | number w =>
      intro base prog pre post st fuel hsplit hfree hover hregs hfuel
      simp only [leafCount] at hover
      obtain ⟨f, rfl⟩ : ∃ f, fuel = f + 1 := ⟨fuel - 1, by omega⟩
      simp only [codegen_expr] at hsplit
      have hpc : pre.length < prog.length := by
        rw [hsplit]; simp
      have hget : prog.get ⟨pre.length, hpc⟩
          = { op := .loadConst, dst := (base : Int), imm := w } :=
        fetch_of_split prog pre post _ pre.length (by rw [hsplit]; simp) rfl hpc
      rw [cpuRun_step prog f pre.length st hpc, hget,
        cpuStep_loadConst_fail prog.length pre.length base (by omega) w st]
  | binary op l r ihl ihr =>
      intro base prog pre post st fuel hsplit hfree hover hregs hfuel
      have hll := leafCount_pos l
      have hlr := leafCount_pos r
      have hncl := nodeCount_eq l
      have hfreeL : divFree l = true := by
        cases op <;> simp only [divFree, Bool.and_eq_true] at hfree <;> tauto
      have hfreeR : divFree r = true := by
        cases op <;> simp only [divFree, Bool.and_eq_true] at hfree <;> tauto
      simp only [leafCount] at hover
      simp only [codegen_expr] at hsplit
      rw [codegen_expr_ret l base, codegen_expr_ret r,
        codegen_expr_next l base] at hsplit
      set L := (codegen_expr l base).1 with hLdef
      set R := (codegen_expr r (base + leafCount l)).1 with hRdef
      set inst : IRInstr :=
        { op := ast_op_to_ir op
          dst := (base : Int)
          src := ((base + leafCount l : Nat) : Int) } with hinst
      have hLlen : L.length = nodeCount l := codegen_expr_length l base
      by_cases hfit : base + leafCount l ≤ 32
      · obtain ⟨lv, hl⟩ := divFree_eval l hfreeL
        have hsplit1 : prog = pre ++ L ++ (R ++ [inst] ++ post) := by
          rw [hsplit]; simp [List.append_assoc]
        obtain ⟨st1, E1, h1base, h1frame, h1bound, h1mem, h1last⟩ :=
          codegen_expr_sim l base lv prog pre (R ++ [inst] ++ post) st fuel
            hsplit1 hl (divFree_divSafe l hfreeL) hfit hregs (by omega)
        have hsplit2 : prog = (pre ++ L) ++ R ++ ([inst] ++ post) := by
          rw [hsplit]; simp [List.append_assoc]
        have hrec := ihr (base + leafCount l) prog (pre ++ L) ([inst] ++ post)
          st1 (fuel - nodeCount l) hsplit2 hfreeR (by omega) h1bound (by omega)
        rw [List.length_append, hLlen] at hrec
        rw [E1, hrec]
      · exact ihl base prog pre (R ++ [inst] ++ post) st fuel
          (by rw [hsplit]; simp [List.append_assoc]) hfreeL (by omega) hregs
          (by omega)

/-- Each leaf index `k` below the leaf count has a `LoadConst` instruction
targeting register `base + k` in the emitted code. -/
theorem codegen_expr_leaf_reg (t : Node) :
    ∀ (base k : Nat), k < leafCount t →
      ∃ instr ∈ (codegen_expr t base).1,
        instr.op = .loadConst ∧ instr.dst = ((base + k : Nat) : Int) := by
  induction t with
  | number w =>
      intro base k hk
      simp only [leafCount] at hk
      have hk0 : k = 0 := by omega
      subst hk0
      refine ⟨{ op := .loadConst, dst := (base : Int), imm := w }, ?_, rfl, ?_⟩
      · simp [codegen_expr]
      · simp
  | binary op l r ihl ihr =>
      intro base k hk
      simp only [leafCount] at hk
      simp only [codegen_expr]
      by_cases hkl : k < leafCount l
      · obtain ⟨instr, hmem, hop, hdst⟩ := ihl base k hkl
        exact ⟨instr, by simp [hmem], hop, hdst⟩
      · obtain ⟨instr, hmem, hop, hdst⟩ :=
          ihr (codegen_expr l base).2.2 (k - leafCount l) (by omega)
        refine ⟨instr, by simp [hmem], hop, ?_⟩
        rw [hdst, codegen_expr_next l base]
        congr 1
        omega

/-- Flag preservation: a successful step of any non-arithmetic,
non-comparison instruction leaves the ALU flags untouched. -/
theorem cpuStep_flags_preserved (pcount pc : Nat) (i : IRInstr)
    (st st' : CPUState) (pc' : Nat)
    (hop : i.op = .loadConst ∨ i.op = .jmp ∨ i.op = .jz ∨ i.op = .jnz
      ∨ i.op = .load ∨ i.op = .store)
    (hstep : cpuStep pcount pc i st = .ok (st', pc')) :
    st'.flags = st.flags := by
  rcases hop with h | h | h | h | h | h <;>
    simp only [cpuStep, h] at hstep <;>
    repeat' split at hstep
  all_goals
    first
      | exact Except.noConfusion hstep
      | (simp only [Except.ok.injEq, Prod.mk.injEq] at hstep
         rw [← hstep.1])

/-- An unconditional self-jump never leaves pc 0, so it exhausts any fuel. -/
theorem jmp0_loops (fuel : Nat) (st : CPUState) :
    cpuRun [{ op := .jmp, target := 0 }] fuel 0 st
      = .error .infiniteLoopGuard := by
  induction fuel generalizing st with
  | zero => exact cpuRun_guard _ 0 st (by simp)
  | succ f ih =>
      rw [cpuRun_step _ f 0 st (by simp)]
      simp only [List.get, cpuStep, check_target]
      rw [if_neg (by simp)]
      exact ih st

/-- Branch-target validation for `Jmp` and for taken `Jz`/`Jnz`: a target
outside `[0, program.length]` aborts with `branchOutOfRange`; a target equal
to `program.length` halts the loop normally. -/
theorem branch_target_validation (prog : List IRInstr) (pc : Nat)
    (st : CPUState) (fuel : Nat) (i : IRInstr) (h : pc < prog.length)
    (hi : prog.get ⟨pc, h⟩ = i)
    (htaken : i.op = .jmp ∨ (i.op = .jz ∧ st.flags.Z = true)
      ∨ (i.op = .jnz ∧ st.flags.Z = false)) :
    ((i.target < 0 ∨ (prog.length : Int) < i.target) →
        cpuRun prog (fuel + 1) pc st = .error .branchOutOfRange)
      ∧ (i.target = (prog.length : Int) →
          cpuRun prog (fuel + 1) pc st = .ok st) := by
  constructor
  · intro hbad
    rw [cpuRun_step prog fuel pc st h, hi]
    rcases htaken with hop | ⟨hop, hz⟩ | ⟨hop, hz⟩
    · simp only [cpuStep, hop, check_target]
      rw [if_pos hbad]
    · simp only [cpuStep, hop, check_target, hz, if_true]
      rw [if_pos hbad]
    · simp only [cpuStep, hop, check_target, hz]
      rw [if_neg (by simp), if_pos hbad]
  · intro hend
    have hok : check_target i.target prog.length = .ok () := by
      rw [check_target, if_neg (by omega)]
    have htn : i.target.toNat = prog.length := by omega
    rw [cpuRun_step prog fuel pc st h, hi]
    rcases htaken with hop | ⟨hop, hz⟩ | ⟨hop, hz⟩
    · simp only [cpuStep, hop, hok]
      rw [htn]
      exact cpuRun_done _ _ _ _ (lt_irrefl _)
    · simp only [cpuStep, hop, hz, if_true, hok]
      rw [htn]
      exact cpuRun_done _ _ _ _ (lt_irrefl _)
    · simp only [cpuStep, hop, hz, hok]
      rw [if_neg (by simp), htn]
      exact cpuRun_done _ _ _ _ (lt_irrefl _)

/-! ## Concrete inputs used by witnesses and counterexamples -/

/-- The tree of `(1 - 3) / 2`: its reference value is `-1`, but the CPU
divides the unsigned bit pattern `0xFFFFFFFE` by 2. -/
def cexDiv : Node := .binary .div (.binary .sub (.number 1) (.number 3)) (.number 2)

/-- The tree of `3 + 4`. -/
def tAdd34 : Node := .binary .add (.number 3) (.number 4)

/-- A right-leaning chain of additions with `n + 1` Number leaves. -/
def addChain : Nat → Node
  | 0 => .number 1
  | n + 1 => .binary .add (.number 1) (addChain n)

/-- A tree with 35 leaves whose first compiled operation divides by zero. -/
def cexOver : Node :=
  .binary .add (.binary .div (.number 1) (.number 0)) (addChain 32)

/-- A CPU state with all four flags raised, to exercise flag preservation. -/
def flagSt : CPUState :=
  { regs := fun _ => 0
    flags := { Z := true, N := true, C := true, V := true }
    lastDst := 0
    mem := none }

/-! ## Claim theorems -/

/-- Claim C1, counterexample: the tree `(1 - 3) / 2` has reference value
`-1`, which fits in 32 bits, yet the CPU returns register value
`0x7FFFFFFF = 2147483647`, not `-1 mod 2^32 = 4294967295`: the evaluator
divides signed while the CPU divides unsigned bit patterns. -/
theorem C1_counterexample :
    eval cexDiv = .ok (-1)
      ∧ (-(2 ^ 31) : Int) ≤ -1 ∧ ((-1 : Int) < 2 ^ 31)
      ∧ cpu_execute (codegen cexDiv) none = .ok 2147483647
      ∧ (((-1 : Int) % 2 ^ 32).toNat ≠ 2147483647) :=
  ⟨by decide, by decide, by decide, by decide, by decide⟩

/-- Claim C1 (amended): for every expression tree with at most 32 Number
leaves, whose reference value `v` exists, and in which every `Div` node's
operands evaluate into `[0, 2^32)`, `cpu_execute` on the program produced by
`codegen` terminates normally and returns the sign-extended value of the
last-written register, which holds `v mod 2^32`. -/
theorem C1_cpu_agrees_with_eval_mod32 (t : Node) (v : Int) (mem : Option Memory)
    (hev : eval t = .ok v) (hsafe : divSafe t = true)
    (hleaf : leafCount t ≤ 32) :
    cpu_execute (codegen t) mem
      = .ok (toSigned ((v % (2 ^ 32 : Int)).toNat)) :=
  cpu_agrees_with_eval t v mem hev hsafe hleaf

/-- Claim C1 witness: the amended theorem applied to the tree of `3 + 4`. -/
theorem C1_cpu_agrees_with_eval_mod32_witness :
    eval tAdd34 = .ok 7 ∧ divSafe tAdd34 = true ∧ leafCount tAdd34 ≤ 32
      ∧ cpu_execute (codegen tAdd34) none
          = .ok (toSigned (((7 : Int) % 2 ^ 32).toNat)) :=
  ⟨by decide, by decide, by decide,
   C1_cpu_agrees_with_eval_mod32 tAdd34 7 none (by decide) (by decide) (by decide)⟩

/-- Claim C2: codegen lowers post-order with a monotonically increasing
register counter: a Number leaf takes the next free register `n`, emits
`LoadConst n, value` and returns `n`; a BinaryOp first lowers the left child,
then the right child, then emits the mapped opcode with `dst` the left
register and `src` the right register, returning the left register; and on
the tree of `3+4` the emitted program is exactly
`LoadConst r0,3; LoadConst r1,4; Add r0,r1`, returning `r0`. -/
theorem C2_codegen_postorder :
    (∀ (v : Int) (n : Nat), codegen_expr (.number v) n
        = ([{ op := .loadConst, dst := (n : Int), imm := v }], n, n + 1))
      ∧ (∀ (op : BinaryOp) (l r : Node) (n : Nat),
          (codegen_expr (.binary op l r) n).1
            = (codegen_expr l n).1
              ++ (codegen_expr r (codegen_expr l n).2.2).1
              ++ [{ op := ast_op_to_ir op
                    dst := ((codegen_expr l n).2.1 : Int)
                    src := ((codegen_expr r (codegen_expr l n).2.2).2.1 : Int) }])
      ∧ (∀ (t : Node) (n : Nat), (codegen_expr t n).2.1 = n
          ∧ (codegen_expr t n).2.2 = n + leafCount t)
      ∧ codegen tAdd34
          = [{ op := .loadConst, dst := 0, imm := 3 },
             { op := .loadConst, dst := 1, imm := 4 },
             { op := .add, dst := 0, src := 1 }]
      ∧ (codegen_expr tAdd34 0).2.1 = 0 :=
  ⟨fun v n => rfl, fun op l r n => rfl,
   fun t n => ⟨codegen_expr_ret t n, codegen_expr_next t n⟩,
   by decide, by decide⟩

/-- Claim C3: `alu_add` returns `(a + b) mod 2^32`, C is the carry out of
bit 31, Z iff the result is zero, N is bit 31 of the result (`2^31 ≤`),
V is set iff same-sign operands produce an opposite-sign result; with the
claimed boundary cases. -/
theorem C3_alu_add_spec (a b : Nat) (ha : a < 2 ^ 32) (hb : b < 2 ^ 32) :
    (alu_add a b).1 = (a + b) % 2 ^ 32
      ∧ ((alu_add a b).2.C = true ↔ 2 ^ 32 ≤ a + b)
      ∧ ((alu_add a b).2.Z = true ↔ (a + b) % 2 ^ 32 = 0)
      ∧ ((alu_add a b).2.N = true ↔ 2 ^ 31 ≤ (a + b) % 2 ^ 32)
      ∧ ((alu_add a b).2.V = true ↔
          ((2 ^ 31 ≤ a ↔ 2 ^ 31 ≤ b)
            ∧ ¬(2 ^ 31 ≤ (a + b) % 2 ^ 32 ↔ 2 ^ 31 ≤ a)))
      ∧ alu_add 0x7FFFFFFF 1
          = (0x80000000, { Z := false, N := true, C := false, V := true })
      ∧ alu_add 0xFFFFFFFF 1
          = (0, { Z := true, N := false, C := true, V := false }) := by
  obtain ⟨hC, hZ, hN, hV⟩ := alu_add_flags a b ha hb
  refine ⟨alu_add_result a b ha hb, ?_, ?_, ?_, hV, by decide, by decide⟩
  · rw [hC, decide_eq_true_eq]
  · rw [hZ, decide_eq_true_eq]
  · rw [hN, decide_eq_true_eq]

/-- Claim C3 witness: the specification applied at `a = 5`, `b = 7`. -/
theorem C3_alu_add_spec_witness :
    (5 : Nat) < 2 ^ 32 ∧ (7 : Nat) < 2 ^ 32
      ∧ (alu_add 5 7).1 = (5 + 7) % 2 ^ 32 :=
  ⟨by decide, by decide, (C3_alu_add_spec 5 7 (by decide) (by decide)).1⟩

/-- Claim C4: `alu_sub` returns `(a - b) mod 2^32` (over the integers),
Z iff `a = b`, and C iff `a ≥ b` unsigned (the no-borrow convention). -/
theorem C4_alu_sub_spec (a b : Nat) (ha : a < 2 ^ 32) (hb : b < 2 ^ 32) :
    ((alu_sub a b).1 : Int) = ((a : Int) - b) % 2 ^ 32
      ∧ ((alu_sub a b).2.Z = true ↔ a = b)
      ∧ ((alu_sub a b).2.C = true ↔ b ≤ a) := by
  obtain ⟨hZ, hC⟩ := alu_sub_flags a b ha hb
  refine ⟨alu_sub_result a b ha hb, ?_, ?_⟩
  · rw [hZ, decide_eq_true_eq]
  · rw [hC, decide_eq_true_eq]

/-- Claim C4 witness: the specification applied at `a = 5`, `b = 5`. -/
theorem C4_alu_sub_spec_witness :
    (5 : Nat) < 2 ^ 32
      ∧ ((alu_sub 5 5).1 : Int) = ((5 : Int) - 5) % 2 ^ 32
      ∧ ((alu_sub 5 5).2.Z = true ↔ (5 : Nat) = 5) :=
  ⟨by decide, (C4_alu_sub_spec 5 5 (by decide) (by decide)).1,
   (C4_alu_sub_spec 5 5 (by decide) (by decide)).2.1⟩

/-- Claim C5, counterexample: an executed but *untaken* `Jz` whose target 2
exceeds the program length 1 does not fail with `BranchOutOfRange`; the run
terminates normally.  The code validates `Jz`/`Jnz` targets only when the
branch is taken. -/
theorem C5_counterexample :
    cpu_execute [{ op := .jz, target := 2 }] none = .ok 0
      ∧ cpu_execute [{ op := .jz, target := 2 }] none
          ≠ .error .branchOutOfRange :=
  ⟨by decide, by decide⟩

/-- Claim C5 (amended): for a `Jmp`, and for a `Jz`/`Jnz` whose condition
holds, a target outside `[0, program.length]` makes execution fail with
`BranchOutOfRange`, and a target equal to `program.length` is legal and
terminates the execution loop. -/
theorem C5_branch_validation (prog : List IRInstr) (pc : Nat) (st : CPUState)
    (fuel : Nat) (i : IRInstr) (h : pc < prog.length)
    (hi : prog.get ⟨pc, h⟩ = i)
    (htaken : i.op = .jmp ∨ (i.op = .jz ∧ st.flags.Z = true)
      ∨ (i.op = .jnz ∧ st.flags.Z = false)) :
    ((i.target < 0 ∨ (prog.length : Int) < i.target) →
        cpuRun prog (fuel + 1) pc st = .error .branchOutOfRange)
      ∧ (i.target = (prog.length : Int) →
          cpuRun prog (fuel + 1) pc st = .ok st) :=
  branch_target_validation prog pc st fuel i h hi htaken

/-- Claim C5 witness: a `Jmp` to 5 in a one-instruction program fails, and a
`Jmp` to 1 (the program length) halts normally. -/
theorem C5_branch_validation_witness :
    cpuRun [{ op := .jmp, target := 5 }] 1 0 (initState none)
        = .error .branchOutOfRange
      ∧ cpuRun [{ op := .jmp, target := 1 }] 1 0 (initState none)
        = .ok (initState none) :=
  ⟨(C5_branch_validation [{ op := .jmp, target := 5 }] 0 (initState none) 0
      { op := .jmp, target := 5 } (by decide) rfl (Or.inl rfl)).1 (by decide),
   (C5_branch_validation [{ op := .jmp, target := 1 }] 0 (initState none) 0
      { op := .jmp, target := 1 } (by decide) rfl (Or.inl rfl)).2 (by decide)⟩

/-- Claim C6: a successful step of `LoadConst`, `Jmp`, `Jz`, `Jnz`, `Load`
or `Store` leaves all four ALU flags exactly as they were; only the
arithmetic and compare opcodes write them. -/
theorem C6_flags_preserved (pcount pc : Nat) (i : IRInstr)
    (st st' : CPUState) (pc' : Nat)
    (hop : i.op = .loadConst ∨ i.op = .jmp ∨ i.op = .jz ∨ i.op = .jnz
      ∨ i.op = .load ∨ i.op = .store)
    (hstep : cpuStep pcount pc i st = .ok (st', pc')) :
    st'.flags = st.flags :=
  cpuStep_flags_preserved pcount pc i st st' pc' hop hstep

/-- Claim C6 witness: a `LoadConst` step from a state with all flags raised
keeps all four flags raised. -/
theorem C6_flags_preserved_witness :
    ({ flagSt with regs := setReg flagSt.regs 0 5
                   lastDst := 0 } : CPUState).flags = flagSt.flags :=
  C6_flags_preserved 1 0 { op := .loadConst, dst := 0, imm := 5 } flagSt _ 1
    (Or.inl rfl) rfl

/-- Claim C7: `cpu_execute` always terminates with a success or error value;
with the step budget exhausted the loop fails with `InfiniteLoopGuard` at
any in-range pc, and the concrete self-loop `Jmp 0` is stopped by the guard
rather than running forever. -/
theorem C7_termination :
    (∀ (prog : List IRInstr) (mem : Option Memory),
        (∃ v, cpu_execute prog mem = .ok v)
          ∨ ∃ e, cpu_execute prog mem = .error e)
      ∧ (∀ (prog : List IRInstr) (pc : Nat) (st : CPUState),
          pc < prog.length → cpuRun prog 0 pc st = .error .infiniteLoopGuard)
      ∧ cpu_execute [{ op := .jmp, target := 0 }] none
          = .error .infiniteLoopGuard := by
  refine ⟨?_, ?_, ?_⟩
  · intro prog mem
    cases h : cpu_execute prog mem with
    | ok v => exact Or.inl ⟨v, rfl⟩
    | error e => exact Or.inr ⟨e, rfl⟩
  · intro prog pc st h
    exact cpuRun_guard prog pc st h
  · rw [cpu_execute, if_neg (by simp), jmp0_loops]

/-- Claim C7 witness: the exhausted-fuel conjunct applied to the
one-instruction self-loop program. -/
theorem C7_termination_witness :
    0 < ([{ op := .jmp, target := 0 }] : List IRInstr).length
      ∧ cpuRun [{ op := .jmp, target := 0 }] 0 0 (initState none)
          = .error .infiniteLoopGuard :=
  ⟨by decide, C7_termination.2.1 _ 0 (initState none) (by decide)⟩

/-- Claim C8: for every 4-byte aligned address at most `MEM_SIZE - 4` and
32-bit value, writing then reading the word succeeds and returns the value,
and the write lays the bytes out little-endian:
byte `addr + k` holds `(v >>> 8k) & 0xFF`. -/
theorem C8_word_roundtrip (mem : Memory) (addr v : Nat)
    (hal : addr % 4 = 0) (hb : addr ≤ MEM_SIZE - 4) (hv : v < 2 ^ 32) :
    ∃ mem', mem_write_word mem addr v = .ok mem'
      ∧ mem_read_word mem' addr = .ok v
      ∧ ∀ k, k < 4 → mem'.data (addr + k) = (v >>> (8 * k)) &&& 0xFF := by
  have hb' : addr ≤ 65532 := by
    simp only [MEM_SIZE] at hb
    omega
  obtain ⟨mem', hw, h0, h1, h2, h3, _⟩ := mem_write_word_bytes mem addr v hal hb'
  obtain ⟨mem2, hw2, hr2⟩ := mem_write_read_roundtrip mem addr v hal hb' hv
  have hmm : mem2 = mem' := by
    rw [hw] at hw2
    exact (Except.ok.inj hw2).symm
  subst hmm
  refine ⟨mem2, hw, hr2, ?_⟩
  intro k hk
  interval_cases k
  · simpa using h0
  · simpa using h1
  · simpa using h2
  · simpa using h3

/-- Claim C8 witness: the round trip at address `0x200` with value
`0xDEADBEEF`. -/
theorem C8_word_roundtrip_witness :
    (512 % 4 = 0) ∧ 512 ≤ MEM_SIZE - 4 ∧ (3735928559 : Nat) < 2 ^ 32
      ∧ ∃ mem', mem_write_word mem_init 512 3735928559 = .ok mem'
          ∧ mem_read_word mem' 512 = .ok 3735928559
          ∧ ∀ k, k < 4 →
              mem'.data (512 + k) = (3735928559 >>> (8 * k)) &&& 0xFF :=
  ⟨by decide, by decide, by decide,
   C8_word_roundtrip mem_init 512 3735928559 (by decide) (by decide) (by decide)⟩

/-- Claim C9: word accesses fail with `AlignmentError` exactly when
`addr mod 4 ≠ 0`, and with `BoundsError` when aligned but beyond
`MEM_SIZE - 4`; `read_word 0x102` is an alignment error, `read_word 0x10000`
a bounds error, and `read_word 0xFFFC` succeeds.  (On failure the embedding
returns no new memory, so the contents are unchanged by construction.) -/
theorem C9_memory_errors :
    (∀ (mem : Memory) (addr : Nat), addr % 4 ≠ 0 →
        mem_read_word mem addr = .error .alignmentError
          ∧ ∀ v, mem_write_word mem addr v = .error .alignmentError)
      ∧ (∀ (mem : Memory) (addr : Nat), addr % 4 = 0 → MEM_SIZE - 4 < addr →
          mem_read_word mem addr = .error .boundsError
            ∧ ∀ v, mem_write_word mem addr v = .error .boundsError)
      ∧ mem_read_word mem_init 0x102 = .error .alignmentError
      ∧ mem_read_word mem_init 0x10000 = .error .boundsError
      ∧ mem_read_word mem_init 0xFFFC = .ok 0 := by
  refine ⟨?_, ?_, by decide, by decide, by decide⟩
  · intro mem addr hal
    have hca : check_access addr = .error .alignmentError := by
      rw [check_access, if_pos (by simpa [MEM_WORD_SIZE] using hal)]
    exact ⟨by rw [mem_read_word, hca], fun v => by rw [mem_write_word, hca]⟩
  · intro mem addr hal hbound
    simp only [MEM_SIZE] at hbound
    have hca : check_access addr = .error .boundsError := by
      rw [check_access, if_neg (by simp [MEM_WORD_SIZE, hal]),
        if_pos (by simp only [MEM_SIZE, MEM_WORD_SIZE]; omega)]
    exact ⟨by rw [mem_read_word, hca], fun v => by rw [mem_write_word, hca]⟩

/-- Claim C9 witness: the alignment conjunct applied at address `0x102`. -/
theorem C9_memory_errors_witness :
    (258 % 4 ≠ 0) ∧ mem_read_word mem_init 258 = .error .alignmentError :=
  ⟨by decide, (C9_memory_errors.1 mem_init 258 (by decide)).1⟩

/-- Claim C10, counterexample: a tree with 35 Number leaves whose first
compiled operation divides by zero fails with `DivisionByZero`, not
`RegisterOutOfRange`: an earlier runtime error can pre-empt the register
check. -/
theorem C10_counterexample :
    32 < leafCount cexOver
      ∧ cpu_execute (codegen cexOver) none = .error .divisionByZero
      ∧ cpu_execute (codegen cexOver) none ≠ .error .registerOutOfRange :=
  ⟨by decide, by decide, by decide⟩

/-- Claim C10 (amended): codegen places no bound on its register counter:
for every Div-free tree with more than 32 leaves it emits a `LoadConst`
naming register 32, and executing the program fails in `cpu_execute` with
`RegisterOutOfRange`; codegen itself reports nothing. -/
theorem C10_register_overflow (t : Node) (mem : Option Memory)
    (hfree : divFree t = true) (hleaf : 32 < leafCount t) :
    (∃ instr ∈ codegen t, instr.op = .loadConst ∧ instr.dst = (32 : Int))
      ∧ cpu_execute (codegen t) mem = .error .registerOutOfRange := by
  constructor
  · obtain ⟨instr, hmem, hop, hdst⟩ := codegen_expr_leaf_reg t 0 32 (by omega)
    exact ⟨instr, hmem, hop, by simpa using hdst⟩
  · have hlc := leafCount_pos t
    have hnc := nodeCount_eq t
    have hlen : (codegen t).length = nodeCount t := codegen_expr_length t 0
    have hrun := codegen_expr_overflow t 0 (codegen t) [] [] (initState mem)
      CPU_MAX_STEPS (by simp [codegen]) hfree (by omega)
      (fun i => by simp [initState]) (by simp only [CPU_MAX_STEPS]; omega)
    simp only [List.length_nil] at hrun
    have hne : ¬ ((codegen t).length = 0) := by omega
    rw [cpu_execute, if_neg hne, hrun]

/-- Claim C10 witness: the amended theorem applied to a Div-free chain with
33 leaves. -/
theorem C10_register_overflow_witness :
    divFree (addChain 32) = true ∧ 32 < leafCount (addChain 32)
      ∧ (∃ instr ∈ codegen (addChain 32),
          instr.op = .loadConst ∧ instr.dst = (32 : Int))
      ∧ cpu_execute (codegen (addChain 32)) none
          = .error .registerOutOfRange :=
  ⟨by decide, by decide,
   (C10_register_overflow (addChain 32) none (by decide) (by decide)).1,
   (C10_register_overflow (addChain 32) none (by decide) (by decide)).2⟩

end MathSim
